import Mathlib

/-!
Shallow embedding of the `rustified` growable vector
(`src/structures/vector/vec.rs` and its `RawVec` collaborator).

Modelling choices:
* `usize` is modelled as `Nat`; the 64-bit bound `USIZE_MAX = 2^64 - 1`
  is made explicit where the code can overflow.
* A `Vec α` carries the raw buffer (capacity plus a flag recording whether
  the element type is zero-sized), the current length, and the memory
  contents as a map from slot index to `Option α`; `none` stands for an
  uninitialized slot.
* A Rust panic or abort is modelled as `Except.error s` where `s` is the
  state of the vector at the moment of the panic, so "fails before any
  state is mutated" is expressible as `= .error v`.
-/

set_option autoImplicit false

namespace Rustified

variable {α : Type}

/-- Maximum value of `usize` on the (64-bit) target. -/
def USIZE_MAX : Nat := 2 ^ 64 - 1

/-- Raw buffer: an allocation sized for `cap` elements. `zst` records
whether the element type is zero-sized (in Rust this is a property of `T`;
the shallow embedding carries it as a flag). -/
structure RawVec (α : Type) where
  cap : Nat
  zst : Bool
  deriving Repr

/-- Modelled from the spec: `RawVec::capacity` (the file `raw_vec.rs` is not
under `src/`). "capacity is reported as `usize::MAX` for zero-sized T
regardless of actual allocation"; otherwise the allocated slot count. -/
def RawVec.capacity (b : RawVec α) : Nat :=
  if b.zst then USIZE_MAX else b.cap

/-- Modelled from the spec: `RawVec::NEW` / `RawVec::new` (the file
`raw_vec.rs` is not under `src/`). "created empty (capacity 0, no
allocation)". -/
def RawVec.NEW (zst : Bool) : RawVec α :=
  { cap := 0, zst := zst }

/-- Modelled from the spec: `RawVec::with_capacity` (the file `raw_vec.rs`
is not under `src/`). "allocates room for exactly n elements eagerly";
"For zero-sized T, this is a no-op (no bytes requested)". -/
def RawVec.with_capacity (zst : Bool) (n : Nat) : RawVec α :=
  { cap := if zst then 0 else n, zst := zst }

/-- Modelled from the spec: `RawVec::with_capacity_zeroed` (the file
`raw_vec.rs` is not under `src/`). Same allocation behaviour as
`with_capacity`; the zero-fill has no observable effect in this model,
where uninitialized slots are `none` either way. -/
def RawVec.with_capacity_zeroed (zst : Bool) (n : Nat) : RawVec α :=
  { cap := if zst then 0 else n, zst := zst }

/-- Modelled from the spec: `RawVec::reserve` (the file `raw_vec.rs` is not
under `src/`). "ensures capacity >= current_len + additional; if the
existing capacity already suffices, this is a no-op. Growth policy: new
capacity is computed as the larger of (existing capacity doubled) and
(current_len + additional), with a guaranteed minimum starting capacity of
4 elements the first time a non-zero-sized buffer grows from empty";
arithmetic overflow of the required count is fatal (`.error`). -/
def RawVec.reserve (b : RawVec α) (len additional : Nat) : Except Unit (RawVec α) :=
  if b.zst then
    if len + additional ≤ USIZE_MAX then .ok b else .error ()
  else if len + additional ≤ b.cap then .ok b
  else if len + additional ≤ USIZE_MAX then
    .ok { b with cap := if b.cap = 0 then max (len + additional) 4
                        else max (2 * b.cap) (len + additional) }
  else .error ()

/-- Modelled from the spec: `RawVec::reserve_for_push` (the file
`raw_vec.rs` is not under `src/`). "convenience for the single-slot-needed
case; equivalent to `reserve(current_len, 1)`". -/
def RawVec.reserve_for_push (b : RawVec α) (len : Nat) : Except Unit (RawVec α) :=
  b.reserve len 1

/-- The vector of `vec.rs`: a raw buffer, a length, and the memory
contents, slot by slot (`none` = uninitialized). -/
structure Vec (α : Type) where
  buf : RawVec α
  len : Nat
  mem : Nat → Option α

/-- `Vec::capacity` (vec.rs line 42): delegates to the buffer. -/
def Vec.capacity (v : Vec α) : Nat :=
  v.buf.capacity

/-- `Vec::new` (vec.rs line 15): empty buffer, length 0. -/
def Vec.new (zst : Bool) : Vec α :=
  { buf := RawVec.NEW zst, len := 0, mem := fun _ => none }

/-- `Vec::with_capacity` (vec.rs line 22). -/
def Vec.with_capacity (zst : Bool) (n : Nat) : Vec α :=
  { buf := RawVec.with_capacity zst n, len := 0, mem := fun _ => none }

/-- `Vec::with_capacity_zeroed` (vec.rs line 29). -/
def Vec.with_capacity_zeroed (zst : Bool) (n : Nat) : Vec α :=
  { buf := RawVec.with_capacity_zeroed zst n, len := 0, mem := fun _ => none }

/-- `Vec::set_len` (vec.rs line 57): `assert!(len <= self.capacity())`,
then set the length. A failed assertion is a panic carrying the untouched
state. -/
def Vec.set_len (v : Vec α) (n : Nat) : Except (Vec α) (Vec α) :=
  if n ≤ v.capacity then .ok { v with len := n } else .error v

/-- `Vec::push` (vec.rs line 62): grow if `len == capacity`, then write
`value` into slot `len` and increment `len`. An aborting growth request is
`.error` with the untouched state. -/
def Vec.push (v : Vec α) (value : α) : Except (Vec α) (Vec α) :=
  if v.len = v.capacity then
    match v.buf.reserve_for_push v.len with
    | .error _ => .error v
    | .ok b =>
        .ok { v with buf := b,
                     mem := fun j => if j = v.len then some value else v.mem j,
                     len := v.len + 1 }
  else
    .ok { v with mem := fun j => if j = v.len then some value else v.mem j,
                 len := v.len + 1 }

/-- `Vec::pop` (vec.rs line 78): `None` when empty; otherwise decrement
`len` and read the slot at the new length. The read of an uninitialized
slot would return `none` (it never happens on well-formed vectors). -/
def Vec.pop (v : Vec α) : Option α × Vec α :=
  if v.len = 0 then (none, v)
  else (v.mem (v.len - 1), { v with len := v.len - 1 })

/-- `Vec::insert` (vec.rs line 93): bounds check `index <= len`, grow if
full, shift `[index, len)` one slot right (`ptr::copy(p, p.add(1),
len - index)`), write the element at `index`, `set_len(len + 1)`. -/
def Vec.insert (v : Vec α) (index : Nat) (element : α) : Except (Vec α) (Vec α) :=
  if index ≤ v.len then
    match (if v.len = v.capacity then v.buf.reserve v.len 1 else .ok v.buf) with
    | .error _ => .error v
    | .ok b =>
        Vec.set_len
          { v with buf := b,
                   mem := fun j => if j = index then some element
                          else (if index < v.len then
                                  fun j => if index + 1 ≤ j ∧ j ≤ v.len then v.mem (j - 1)
                                           else v.mem j
                                else v.mem) j }
          (v.len + 1)
  else .error v

/-- `Vec::remove` (vec.rs line 119): bounds check `index < len`, read the
value at `index`, shift `[index+1, len)` one slot left
(`ptr::copy(p.add(1), p, len - index - 1)`), `set_len(len - 1)`. -/
def Vec.remove (v : Vec α) (index : Nat) : Except (Vec α) (Option α × Vec α) :=
  if index < v.len then
    match Vec.set_len
        { v with mem := fun j => if index ≤ j ∧ j + 2 ≤ v.len then v.mem (j + 1) else v.mem j }
        (v.len - 1) with
    | .error w => .error w
    | .ok w => .ok (v.mem index, w)
  else .error v

/-- `Vec::swap_remove` (vec.rs line 139): bounds check `index < len`, read
the value at `index`, copy the last live slot into `index`
(`ptr::copy(base.add(len-1), base.add(index), 1)`), `set_len(len - 1)`. -/
def Vec.swap_remove (v : Vec α) (index : Nat) : Except (Vec α) (Option α × Vec α) :=
  if index < v.len then
    match Vec.set_len
        { v with mem := fun j => if j = index then v.mem (v.len - 1) else v.mem j }
        (v.len - 1) with
    | .error w => .error w
    | .ok w => .ok (v.mem index, w)
  else .error v

/-- Run a sequence of pushes, stopping at the first panic/abort. -/
def pushAll (v : Vec α) : List α → Except (Vec α) (Vec α)
  | [] => .ok v
  | x :: xs =>
    match v.push x with
    | .error e => .error e
    | .ok w => pushAll w xs

/-- Pop `n` times, collecting the returned values in order. -/
def popN (v : Vec α) : Nat → List (Option α) × Vec α
  | 0 => ([], v)
  | n + 1 =>
    let p := v.pop
    let q := popN p.2 n
    (p.1 :: q.1, q.2)

/-- A push-or-insert operation, for capacity-monotonicity over mixed
sequences. -/
inductive VOp (α : Type) where
  | push (x : α)
  | ins (i : Nat) (x : α)

/-- Run a sequence of push/insert operations, stopping at the first
panic/abort. -/
def runOps (v : Vec α) : List (VOp α) → Except (Vec α) (Vec α)
  | [] => .ok v
  | VOp.push x :: ops =>
    match v.push x with
    | .error e => .error e
    | .ok w => runOps w ops
  | VOp.ins i x :: ops =>
    match v.insert i x with
    | .error e => .error e
    | .ok w => runOps w ops

/-- Capacity and length after pushing `0, 1, ..., n-1` into a fresh
non-zero-sized vector (`none` if some push aborted). -/
def capLenAfter (n : Nat) : Option (Nat × Nat) :=
  match pushAll (Vec.new false) (List.range n) with
  | .ok w => some (w.capacity, w.len)
  | .error _ => none

/-- A concrete two-element vector, used to instantiate theorems with
hypotheses. -/
def v2 : Vec Nat :=
  { buf := { cap := 4, zst := false }, len := 2,
    mem := fun j => if j = 0 then some 10 else if j = 1 then some 20 else none }

/-- Well-formedness of the live region: every slot below the length is
initialized. -/
@[reducible] def Vec.Live (v : Vec α) : Prop :=
  ∀ i, i < v.len → (v.mem i).isSome

/-- The result of `v2.push 7` (used to instantiate theorems about `push`). -/
def v2push : Vec Nat :=
  { v2 with mem := fun j => if j = 2 then some 7 else v2.mem j, len := 3 }

/-- The result of `v2.insert 1 9` (used to instantiate theorems about
`insert`). -/
def v2ins : Vec Nat :=
  { v2 with mem := fun j => if j = 1 then some 9 else (if 1 < 2 then fun j => if 1 + 1 ≤ j ∧ j ≤ 2 then v2.mem (j - 1) else v2.mem j else v2.mem) j, len := 3 }

/-- The state part of `v2.remove 0` (used to instantiate theorems about
`remove`). -/
def v2rem : Vec Nat :=
  { v2 with mem := fun j => if 0 ≤ j ∧ j + 2 ≤ 2 then v2.mem (j + 1) else v2.mem j, len := 1 }

/-- The state part of `v2.swap_remove 0` (used to instantiate theorems
about `swap_remove`). -/
def v2swap : Vec Nat :=
  { v2 with mem := fun j => if j = 0 then v2.mem (2 - 1) else v2.mem j, len := 1 }

/-! ### Lemmas about the raw buffer -/

theorem RawVec.reserve_spec {b b2 : RawVec α} {len a : Nat}
    (h : b.reserve len a = .ok b2) :
    len + a ≤ b2.capacity ∧ b.capacity ≤ b2.capacity ∧ b2.zst = b.zst := by
  unfold RawVec.reserve at h
  split at h
  · rename_i hz
    split at h
    · rename_i hle
      cases h
      simp [RawVec.capacity, hz]
      exact hle
    · exact absurd h (by simp)
  · rename_i hz
    rw [Bool.not_eq_true] at hz
    split at h
    · rename_i hle
      cases h
      simp [RawVec.capacity, hz]
      exact hle
    · split at h
      · cases h
        constructor
        · simp only [RawVec.capacity, hz, if_neg Bool.false_ne_true]
          split
          · exact le_max_left _ _
          · exact le_max_right _ _
        constructor
        · simp only [RawVec.capacity, hz, if_neg Bool.false_ne_true]
          split
          · rename_i h0
            simp [h0]
          · exact le_trans (Nat.le_mul_of_pos_left _ (by norm_num)) (le_max_left _ _)
        · rfl
      · exact absurd h (by simp)

theorem RawVec.reserve_total (b : RawVec α) (len a : Nat) (h : len + a ≤ USIZE_MAX) :
    ∃ b2, b.reserve len a = .ok b2 := by
  unfold RawVec.reserve
  by_cases hz : b.zst
  · simp [hz, h]
  · by_cases hc : len + a ≤ b.cap
    · simp [hz, hc]
    · simp [hz, hc, h]

/-! ### Lemmas about single vector operations -/

theorem Vec.set_len_ok (v : Vec α) (n : Nat) (h : n ≤ v.capacity) :
    v.set_len n = .ok { v with len := n } := by
  unfold Vec.set_len
  rw [if_pos h]

theorem Vec.set_len_ok_iff {v w : Vec α} {n : Nat} :
    v.set_len n = .ok w ↔ n ≤ v.capacity ∧ w = { v with len := n } := by
  unfold Vec.set_len
  split
  · rename_i hc
    constructor
    · intro h
      exact ⟨hc, (Except.ok.inj h).symm⟩
    · intro h
      rw [h.2]
  · rename_i hc
    constructor
    · intro h
      exact Except.noConfusion h
    · intro h
      exact absurd h.1 hc

theorem Vec.push_ok (v : Vec α) (x : α) (hlt : v.len < USIZE_MAX) (hinv : v.len ≤ v.capacity) :
    ∃ w, v.push x = .ok w ∧
      w.len = v.len + 1 ∧ w.len ≤ w.capacity ∧ v.capacity ≤ w.capacity ∧
      w.buf.zst = v.buf.zst ∧
      (∀ j, w.mem j = if j = v.len then some x else v.mem j) := by
  by_cases hfull : v.len = v.capacity
  · obtain ⟨b2, hb2⟩ := RawVec.reserve_total v.buf v.len 1 (by omega)
    obtain ⟨h1, h2, h3⟩ := RawVec.reserve_spec hb2
    refine ⟨{ v with buf := b2, mem := fun j => if j = v.len then some x else v.mem j, len := v.len + 1 }, ?_, rfl, h1, h2, h3, fun j => rfl⟩
    unfold Vec.push RawVec.reserve_for_push
    rw [if_pos hfull, hb2]
  · refine ⟨{ v with mem := fun j => if j = v.len then some x else v.mem j, len := v.len + 1 }, ?_, rfl, ?_, le_refl _, rfl, fun j => rfl⟩
    · unfold Vec.push
      rw [if_neg hfull]
    · show v.len + 1 ≤ v.capacity
      omega

theorem Vec.pop_pos (v : Vec α) (h : 0 < v.len) :
    v.pop = (v.mem (v.len - 1), { v with len := v.len - 1 }) := by
  unfold Vec.pop
  rw [if_neg (by omega)]

theorem Vec.insert_ok (v : Vec α) (i : Nat) (x : α)
    (hinv : v.len ≤ v.capacity) (hlt : v.len < USIZE_MAX) (hi : i ≤ v.len) :
    ∃ w, v.insert i x = .ok w ∧
      w.len = v.len + 1 ∧ w.len ≤ w.capacity ∧ v.capacity ≤ w.capacity ∧
      w.buf.zst = v.buf.zst ∧
      w.mem i = some x ∧
      (∀ j, j < i → w.mem j = v.mem j) ∧
      (∀ j, i < j → j ≤ v.len → w.mem j = v.mem (j - 1)) ∧
      (∀ j, v.len < j → w.mem j = v.mem j) := by
  have hmem : ∀ j,
      (if j = i then some x
       else (if i < v.len then
               fun j => if i + 1 ≤ j ∧ j ≤ v.len then v.mem (j - 1) else v.mem j
             else v.mem) j) =
      (if j = i then some x
       else if i + 1 ≤ j ∧ j ≤ v.len then v.mem (j - 1) else v.mem j) := by
    intro j
    by_cases hj : j = i
    · rw [if_pos hj, if_pos hj]
    · rw [if_neg hj, if_neg hj]
      by_cases hlt2 : i < v.len
      · rw [if_pos hlt2]
      · rw [if_neg hlt2, if_neg (by omega)]
  by_cases hfull : v.len = v.capacity
  · obtain ⟨b2, hb2⟩ := RawVec.reserve_total v.buf v.len 1 (by omega)
    obtain ⟨h1, h2, h3⟩ := RawVec.reserve_spec hb2
    refine ⟨{ v with buf := b2, mem := fun j => if j = i then some x else (if i < v.len then fun j => if i + 1 ≤ j ∧ j ≤ v.len then v.mem (j - 1) else v.mem j else v.mem) j, len := v.len + 1 }, ?_, rfl, h1, h2, h3, ?_, ?_, ?_, ?_⟩
    · unfold Vec.insert
      rw [if_pos hi, if_pos hfull, hb2]
      show Vec.set_len _ _ = _
      unfold Vec.set_len
      split <;> split <;> first
        | rfl
        | (rename_i hbad; exact absurd h1 hbad)
    · show (if i = i then some x else _) = some x
      rw [if_pos rfl]
    · intro j hj
      show (if j = i then _ else _) = _
      rw [hmem j, if_neg (by omega), if_neg (by omega)]
    · intro j hj1 hj2
      show (if j = i then _ else _) = _
      rw [hmem j, if_neg (by omega), if_pos ⟨by omega, hj2⟩]
    · intro j hj
      show (if j = i then _ else _) = _
      rw [hmem j, if_neg (by omega), if_neg (by omega)]
  · have hcap : v.len < v.capacity := lt_of_le_of_ne hinv hfull
    refine ⟨{ v with buf := v.buf, mem := fun j => if j = i then some x else (if i < v.len then fun j => if i + 1 ≤ j ∧ j ≤ v.len then v.mem (j - 1) else v.mem j else v.mem) j, len := v.len + 1 }, ?_, rfl, ?_, le_refl _, rfl, ?_, ?_, ?_, ?_⟩
    · unfold Vec.insert
      rw [if_pos hi, if_neg hfull]
      show Vec.set_len _ _ = _
      unfold Vec.set_len
      split <;> split <;> first
        | rfl
        | (rename_i hbad; exact absurd (show v.len + 1 ≤ v.capacity by omega) hbad)
    · show v.len + 1 ≤ v.capacity
      omega
    · show (if i = i then some x else _) = some x
      rw [if_pos rfl]
    · intro j hj
      show (if j = i then _ else _) = _
      rw [hmem j, if_neg (by omega), if_neg (by omega)]
    · intro j hj1 hj2
      show (if j = i then _ else _) = _
      rw [hmem j, if_neg (by omega), if_pos ⟨by omega, hj2⟩]
    · intro j hj
      show (if j = i then _ else _) = _
      rw [hmem j, if_neg (by omega), if_neg (by omega)]

theorem Vec.remove_ok (v : Vec α) (i : Nat) (hinv : v.len ≤ v.capacity) (hi : i < v.len) :
    ∃ w, v.remove i = .ok (v.mem i, w) ∧
      w.len = v.len - 1 ∧ w.buf = v.buf ∧
      (∀ j, j < i → w.mem j = v.mem j) ∧
      (∀ j, i ≤ j → j + 2 ≤ v.len → w.mem j = v.mem (j + 1)) ∧
      (∀ j, v.len - 1 ≤ j → w.mem j = v.mem j) := by
  refine ⟨{ v with mem := fun j => if i ≤ j ∧ j + 2 ≤ v.len then v.mem (j + 1) else v.mem j, len := v.len - 1 }, ?_, rfl, rfl, ?_, ?_, ?_⟩
  · unfold Vec.remove
    rw [if_pos hi, Vec.set_len_ok]
    show v.len - 1 ≤ v.capacity
    omega
  · intro j hj
    show (if i ≤ j ∧ j + 2 ≤ v.len then v.mem (j + 1) else v.mem j) = v.mem j
    rw [if_neg (by omega)]
  · intro j hj1 hj2
    show (if i ≤ j ∧ j + 2 ≤ v.len then v.mem (j + 1) else v.mem j) = v.mem (j + 1)
    rw [if_pos ⟨hj1, hj2⟩]
  · intro j hj
    show (if i ≤ j ∧ j + 2 ≤ v.len then v.mem (j + 1) else v.mem j) = v.mem j
    rw [if_neg (by omega)]

theorem Vec.swap_remove_ok (v : Vec α) (i : Nat) (hinv : v.len ≤ v.capacity) (hi : i < v.len) :
    ∃ w, v.swap_remove i = .ok (v.mem i, w) ∧
      w.len = v.len - 1 ∧ w.buf = v.buf ∧
      w.mem i = v.mem (v.len - 1) ∧
      (∀ j, j ≠ i → w.mem j = v.mem j) := by
  refine ⟨{ v with mem := fun j => if j = i then v.mem (v.len - 1) else v.mem j, len := v.len - 1 }, ?_, rfl, rfl, ?_, ?_⟩
  · unfold Vec.swap_remove
    rw [if_pos hi, Vec.set_len_ok]
    show v.len - 1 ≤ v.capacity
    omega
  · show (if i = i then v.mem (v.len - 1) else v.mem i) = v.mem (v.len - 1)
    rw [if_pos rfl]
  · intro j hj
    show (if j = i then v.mem (v.len - 1) else v.mem j) = v.mem j
    rw [if_neg hj]

/-! ### Capacity monotonicity -/

theorem Vec.push_capacity_mono {v w : Vec α} {x : α} (h : v.push x = .ok w) :
    v.capacity ≤ w.capacity := by
  unfold Vec.push at h
  split at h
  · unfold RawVec.reserve_for_push at h
    split at h
    · exact Except.noConfusion h
    · rename_i b heq
      cases h
      exact (RawVec.reserve_spec heq).2.1
  · cases h
    exact le_refl _

theorem Vec.insert_capacity_mono {v w : Vec α} {i : Nat} {x : α} (h : v.insert i x = .ok w) :
    v.capacity ≤ w.capacity := by
  unfold Vec.insert at h
  split at h
  · split at h
    · exact Except.noConfusion h
    · rename_i b heq
      rw [Vec.set_len_ok_iff] at h
      obtain ⟨hle, rfl⟩ := h
      show v.capacity ≤ b.capacity
      split at heq
      · exact (RawVec.reserve_spec heq).2.1
      · cases heq
        exact le_refl _
  · exact Except.noConfusion h

theorem runOps_capacity_mono : ∀ (ops : List (VOp α)) (v w : Vec α),
    runOps v ops = .ok w → v.capacity ≤ w.capacity := by
  intro ops
  induction ops with
  | nil =>
    intro v w h
    cases h
    exact le_refl _
  | cons op rest ih =>
    intro v w h
    cases op with
    | push x =>
      simp only [runOps] at h
      cases hp : v.push x with
      | error e =>
        rw [hp] at h
        exact Except.noConfusion h
      | ok u =>
        rw [hp] at h
        exact le_trans (Vec.push_capacity_mono hp) (ih u w h)
    | ins i x =>
      simp only [runOps] at h
      cases hp : v.insert i x with
      | error e =>
        rw [hp] at h
        exact Except.noConfusion h
      | ok u =>
        rw [hp] at h
        exact le_trans (Vec.insert_capacity_mono hp) (ih u w h)

theorem Vec.push_ok_inv {v w : Vec α} {x : α} (h : v.push x = .ok w) :
    w.len = v.len + 1 ∧ w.buf.zst = v.buf.zst ∧
    (∀ j, w.mem j = if j = v.len then some x else v.mem j) := by
  unfold Vec.push at h
  split at h
  · unfold RawVec.reserve_for_push at h
    split at h
    · exact Except.noConfusion h
    · rename_i b heq
      cases h
      exact ⟨rfl, (RawVec.reserve_spec heq).2.2, fun j => rfl⟩
  · cases h
    exact ⟨rfl, rfl, fun j => rfl⟩

/-! ### Push sequences and pop sequences -/

theorem pushAll_ok : ∀ (xs : List α) (v : Vec α),
    v.len ≤ v.capacity → v.len + xs.length ≤ USIZE_MAX →
    ∃ w, pushAll v xs = .ok w ∧ w.len = v.len + xs.length ∧ w.len ≤ w.capacity ∧
      v.capacity ≤ w.capacity ∧ w.buf.zst = v.buf.zst ∧
      (∀ j, j < v.len → w.mem j = v.mem j) ∧
      (∀ k, ∀ hk : k < xs.length, w.mem (v.len + k) = some (xs.get ⟨k, hk⟩)) := by
  intro xs
  induction xs with
  | nil =>
    intro v hinv hb
    exact ⟨v, rfl, by simp, by simpa using hinv, le_refl _, rfl, fun j _ => rfl,
      fun k hk => absurd hk (by simp)⟩
  | cons x rest ih =>
    intro v hinv hb
    simp only [List.length_cons] at hb
    obtain ⟨w1, hw1, hlen1, hinv1, hcap1, hzst1, hmem1⟩ := Vec.push_ok v x (by omega) hinv
    obtain ⟨w, hw, hlen, hinv2, hcap2, hzst2, hpre, hnew⟩ :=
      ih w1 hinv1 (by rw [hlen1]; omega)
    refine ⟨w, ?_, ?_, hinv2, le_trans hcap1 hcap2, by rw [hzst2, hzst1], ?_, ?_⟩
    · simp only [pushAll]
      rw [hw1]
      exact hw
    · rw [hlen, hlen1]
      simp only [List.length_cons]
      omega
    · intro j hj
      rw [hpre j (by omega), hmem1 j, if_neg (by omega)]
    · intro k hk
      cases k with
      | zero =>
        show w.mem (v.len + 0) = some x
        rw [show v.len + 0 = v.len from rfl, hpre v.len (by omega), hmem1 v.len, if_pos rfl]
      | succ n =>
        have hn : n < rest.length := by
          simpa [List.length_cons] using hk
        have := hnew n hn
        rw [show w1.len + n = v.len + (n + 1) from by omega] at this
        exact this

theorem popN_cons (u : Vec α) (k : Nat) :
    popN u (k + 1) = (u.pop.1 :: (popN u.pop.2 k).1, (popN u.pop.2 k).2) := rfl

theorem popN_succ (n : Nat) : ∀ v : Vec α,
    popN v (n + 1) =
      ((popN v n).1 ++ [((popN v n).2.pop).1], ((popN v n).2.pop).2) := by
  induction n with
  | zero =>
    intro v
    simp [popN]
  | succ m ih =>
    intro v
    rw [popN_cons v (m + 1), popN_cons v m, ih v.pop.2]
    simp

theorem pushAll_then_popN (xs : List α) : ∀ v w : Vec α, pushAll v xs = .ok w →
    (popN w xs.length).1 = (xs.map some).reverse ∧
    (popN w xs.length).2.len = v.len ∧
    (∀ j, (popN w xs.length).2.mem j = w.mem j) ∧
    (∀ j, j < v.len → w.mem j = v.mem j) := by
  induction xs with
  | nil =>
    intro v w h
    cases h
    exact ⟨rfl, rfl, fun j => rfl, fun j _ => rfl⟩
  | cons x rest ih =>
    intro v w h
    simp only [pushAll] at h
    cases hp : v.push x with
    | error e =>
      rw [hp] at h
      exact Except.noConfusion h
    | ok u =>
      rw [hp] at h
      obtain ⟨hlen_u, hzst_u, hmem_u⟩ := Vec.push_ok_inv hp
      obtain ⟨h1, h2, h3, h4⟩ := ih u w h
      have hlenP : (popN w rest.length).2.len = v.len + 1 := by
        rw [h2, hlen_u]
      have hpop := Vec.pop_pos (popN w rest.length).2 (by omega)
      have hval : ((popN w rest.length).2.pop).1 = some x := by
        rw [hpop]
        show (popN w rest.length).2.mem ((popN w rest.length).2.len - 1) = some x
        rw [hlenP, Nat.add_sub_cancel, h3, h4 v.len (by omega), hmem_u v.len, if_pos rfl]
      refine ⟨?_, ?_, ?_, ?_⟩
      · show (popN w ((x :: rest) : List α).length).1 = _
        simp only [List.length_cons]
        rw [popN_succ, hval, h1]
        simp
      · show (popN w ((x :: rest) : List α).length).2.len = v.len
        simp only [List.length_cons]
        rw [popN_succ, hpop]
        show (popN w rest.length).2.len - 1 = v.len
        omega
      · intro j
        show (popN w ((x :: rest) : List α).length).2.mem j = w.mem j
        simp only [List.length_cons]
        rw [popN_succ, hpop]
        exact h3 j
      · intro j hj
        rw [h4 j (by omega), hmem_u j, if_neg (by omega)]

/-! ### The claims -/

/-- C1: for every sequence of N pushes starting from an empty vector, the
final length is N, the capacity is at least N, and slots `[0, N)` hold
exactly the pushed values in push order. -/
theorem C1_push_sequence (xs : List α) (h : xs.length ≤ USIZE_MAX) :
    ∃ w, pushAll (Vec.new false) xs = .ok w ∧
      w.len = xs.length ∧ xs.length ≤ w.capacity ∧
      ∀ k, ∀ hk : k < xs.length, w.mem k = some (xs.get ⟨k, hk⟩) := by
  obtain ⟨w, hw, hlen, hinv, hcap, hzst, hpre, hnew⟩ :=
    pushAll_ok xs (Vec.new false) (Nat.zero_le _)
      (by show 0 + xs.length ≤ USIZE_MAX; omega)
  refine ⟨w, hw, ?_, by omega, ?_⟩
  · rw [hlen]
    exact Nat.zero_add _
  · intro k hk
    have := hnew k hk
    rwa [show (Vec.new (α := α) false).len + k = k from Nat.zero_add _] at this

/-- Witness for C1: pushing the concrete list `[10, 20, 30]`. -/
theorem C1_push_sequence_witness :
    ([10, 20, 30] : List Nat).length ≤ USIZE_MAX ∧
    (∃ w, pushAll (Vec.new false) [10, 20, 30] = .ok w ∧
      w.len = ([10, 20, 30] : List Nat).length ∧
      ([10, 20, 30] : List Nat).length ≤ w.capacity ∧
      ∀ k, ∀ hk : k < ([10, 20, 30] : List Nat).length,
        w.mem k = some (([10, 20, 30] : List Nat).get ⟨k, hk⟩)) :=
  ⟨by decide, C1_push_sequence [10, 20, 30] (by decide)⟩

/-- C2: an out-of-bounds index makes `insert` (index > length), `remove`
and `swap_remove` (index >= length) fail with the state untouched: the
panic value is the input vector itself. -/
theorem C2_oob_no_mutation (v : Vec α) (i : Nat) (x : α) :
    (v.len < i → v.insert i x = .error v) ∧
    (v.len ≤ i → v.remove i = .error v) ∧
    (v.len ≤ i → v.swap_remove i = .error v) := by
  refine ⟨?_, ?_, ?_⟩
  · intro h
    unfold Vec.insert
    rw [if_neg (by omega)]
  · intro h
    unfold Vec.remove
    rw [if_neg (by omega)]
  · intro h
    unfold Vec.swap_remove
    rw [if_neg (by omega)]

/-- Witness for C2: out-of-bounds calls on the concrete two-element
vector `v2`. -/
theorem C2_oob_no_mutation_witness :
    (v2.len < 3 ∧ v2.insert 3 99 = .error v2) ∧
    (v2.len ≤ 2 ∧ v2.remove 2 = .error v2) ∧
    (v2.len ≤ 2 ∧ v2.swap_remove 2 = .error v2) :=
  ⟨⟨by decide, (C2_oob_no_mutation v2 3 99).1 (by decide)⟩,
   ⟨by decide, (C2_oob_no_mutation v2 2 99).2.1 (by decide)⟩,
   ⟨by decide, (C2_oob_no_mutation v2 2 99).2.2 (by decide)⟩⟩

/-- C3: growth law. The first push into a fresh non-zero-sized vector
yields capacity exactly 4; pushing 16 elements yields capacity 16 and
length 16; pushing 100 yields capacity 128 and length 100; and capacity
never decreases over any sequence of push/insert operations. -/
theorem C3_growth_law :
    (∀ x : α, ∃ w, (Vec.new false).push x = .ok w ∧ w.capacity = 4 ∧ w.len = 1) ∧
    capLenAfter 16 = some (16, 16) ∧
    capLenAfter 100 = some (128, 100) ∧
    (∀ (v w : Vec α) (ops : List (VOp α)), runOps v ops = .ok w → v.capacity ≤ w.capacity) := by
  refine ⟨?_, by decide, by decide, ?_⟩
  · intro x
    exact ⟨_, rfl, rfl, rfl⟩
  · intro v w ops h
    exact runOps_capacity_mono ops v w h

/-- Witness for C3: the universally quantified parts instantiated at a
concrete first push and a concrete push/insert sequence. -/
theorem C3_growth_law_witness :
    (∃ w, (Vec.new (α := Nat) false).push 7 = .ok w ∧ w.capacity = 4 ∧ w.len = 1) ∧
    (runOps v2 [VOp.push 7] = .ok v2push ∧ v2.capacity ≤ v2push.capacity) :=
  ⟨(C3_growth_law (α := Nat)).1 7,
   rfl, (C3_growth_law (α := Nat)).2.2.2 v2 v2push [VOp.push 7] rfl⟩

/-- C4: `pop` returns `none` iff the length is 0; on a non-empty vector it
returns the element at slot `length - 1`, decrements the length, and
leaves capacity and every memory slot unchanged. -/
theorem C4_pop_spec (v : Vec α) (hlive : Vec.Live v) :
    ((v.pop).1 = none ↔ v.len = 0) ∧
    (0 < v.len →
      (v.pop).1 = v.mem (v.len - 1) ∧
      (v.pop).2.len = v.len - 1 ∧
      (v.pop).2.capacity = v.capacity ∧
      (∀ j, (v.pop).2.mem j = v.mem j)) := by
  constructor
  · constructor
    · intro h
      by_contra hne
      have hpos : 0 < v.len := Nat.pos_of_ne_zero hne
      have h1 : v.mem (v.len - 1) = none := by
        rw [Vec.pop_pos v hpos] at h
        exact h
      have h2 := hlive (v.len - 1) (by omega)
      rw [h1] at h2
      exact Bool.noConfusion h2
    · intro h
      unfold Vec.pop
      rw [if_pos h]
  · intro hpos
    rw [Vec.pop_pos v hpos]
    exact ⟨rfl, rfl, rfl, fun j => rfl⟩

/-- Witness for C4: `pop` on the concrete two-element vector `v2`. -/
theorem C4_pop_spec_witness :
    Vec.Live v2 ∧
    (((v2.pop).1 = none ↔ v2.len = 0) ∧
     (0 < v2.len →
       (v2.pop).1 = v2.mem (v2.len - 1) ∧
       (v2.pop).2.len = v2.len - 1 ∧
       (v2.pop).2.capacity = v2.capacity ∧
       (∀ j, (v2.pop).2.mem j = v2.mem j))) :=
  ⟨by decide, C4_pop_spec v2 (by decide)⟩

/-- C5: pushing the values of `xs` and then popping `xs.length` times
restores the length, preserves the original live elements, and the pops
return the pushed values in reverse (LIFO) order. -/
theorem C5_push_pop_lifo (v : Vec α) (xs : List α)
    (hinv : v.len ≤ v.capacity) (hb : v.len + xs.length ≤ USIZE_MAX) :
    ∃ w, pushAll v xs = .ok w ∧
      (popN w xs.length).1 = (xs.map some).reverse ∧
      (popN w xs.length).2.len = v.len ∧
      (∀ j, j < v.len → (popN w xs.length).2.mem j = v.mem j) := by
  obtain ⟨w, hw, -, -, -, -, -, -⟩ := pushAll_ok xs v hinv hb
  obtain ⟨h1, h2, h3, h4⟩ := pushAll_then_popN xs v w hw
  exact ⟨w, hw, h1, h2, fun j hj => by rw [h3 j, h4 j hj]⟩

/-- Witness for C5: pushing `[1, 2]` onto the concrete vector `v2` and
popping twice. -/
theorem C5_push_pop_lifo_witness :
    v2.len ≤ v2.capacity ∧ v2.len + ([1, 2] : List Nat).length ≤ USIZE_MAX ∧
    (∃ w, pushAll v2 [1, 2] = .ok w ∧
      (popN w ([1, 2] : List Nat).length).1 = (([1, 2] : List Nat).map some).reverse ∧
      (popN w ([1, 2] : List Nat).length).2.len = v2.len ∧
      (∀ j, j < v2.len → (popN w ([1, 2] : List Nat).length).2.mem j = v2.mem j)) :=
  ⟨by decide, by decide, C5_push_pop_lifo v2 [1, 2] (by decide) (by decide)⟩

/-- C6: `insert(i, v)` immediately followed by `remove(i)` leaves the
length unchanged, returns the inserted value, and leaves every original
live element at its original position. -/
theorem C6_insert_remove_roundtrip (v : Vec α) (i : Nat) (x : α)
    (hinv : v.len ≤ v.capacity) (hlt : v.len < USIZE_MAX) (hi : i ≤ v.len) :
    ∃ w r, v.insert i x = .ok w ∧ w.remove i = .ok (some x, r) ∧
      r.len = v.len ∧ ∀ j, j < v.len → r.mem j = v.mem j := by
  obtain ⟨w, hw, hwlen, hwinv, -, -, hwi, hwlo, hwhi, hwtop⟩ := Vec.insert_ok v i x hinv hlt hi
  obtain ⟨r, hr, hrlen, -, hrlo, hrmid, hrtop⟩ := Vec.remove_ok w i hwinv (by omega)
  rw [hwi] at hr
  refine ⟨w, r, hw, hr, by omega, ?_⟩
  intro j hj
  by_cases hji : j < i
  · rw [hrlo j hji, hwlo j hji]
  · rw [hrmid j (by omega) (by omega), hwhi (j + 1) (by omega) (by omega)]
    simp

/-- Witness for C6: inserting 9 at index 1 of the concrete vector `v2`
and removing it again. -/
theorem C6_insert_remove_roundtrip_witness :
    v2.len ≤ v2.capacity ∧ v2.len < USIZE_MAX ∧ 1 ≤ v2.len ∧
    (∃ w r, v2.insert 1 9 = .ok w ∧ w.remove 1 = .ok (some 9, r) ∧
      r.len = v2.len ∧ ∀ j, j < v2.len → r.mem j = v2.mem j) :=
  ⟨by decide, by decide, by decide,
   C6_insert_remove_roundtrip v2 1 9 (by decide) (by decide) (by decide)⟩

/-- C7: for `i < length`, `remove i` returns the element at `i`, shifts
`(i, length)` left by one in order, and decrements the length;
`swap_remove i` returns the element at `i`, moves the former last element
into slot `i`, and decrements the length; neither reads or writes slots
at or beyond the old length (those slots are unchanged, and the results
depend only on the live slots). -/
theorem C7_remove_and_swap_remove (v : Vec α) (i : Nat)
    (hinv : v.len ≤ v.capacity) (hi : i < v.len) :
    (∃ w, v.remove i = .ok (v.mem i, w) ∧ w.len = v.len - 1 ∧ w.capacity = v.capacity ∧
       (∀ j, j < i → w.mem j = v.mem j) ∧
       (∀ j, i ≤ j → j + 2 ≤ v.len → w.mem j = v.mem (j + 1)) ∧
       (∀ j, v.len - 1 ≤ j → w.mem j = v.mem j)) ∧
    (∃ w, v.swap_remove i = .ok (v.mem i, w) ∧ w.len = v.len - 1 ∧ w.capacity = v.capacity ∧
       w.mem i = v.mem (v.len - 1) ∧
       (∀ j, j ≠ i → w.mem j = v.mem j)) ∧
    (∀ m2 : Nat → Option α, (∀ j, j < v.len → m2 j = v.mem j) →
       (∃ w w2, v.remove i = .ok (v.mem i, w) ∧
          Vec.remove { v with mem := m2 } i = .ok (v.mem i, w2) ∧
          w2.len = w.len ∧ ∀ j, j < v.len - 1 → w2.mem j = w.mem j) ∧
       (∃ w w2, v.swap_remove i = .ok (v.mem i, w) ∧
          Vec.swap_remove { v with mem := m2 } i = .ok (v.mem i, w2) ∧
          w2.len = w.len ∧ ∀ j, j < v.len - 1 → w2.mem j = w.mem j)) := by
  obtain ⟨w, hw, hwlen, hwbuf, hwlo, hwmid, hwtop⟩ := Vec.remove_ok v i hinv hi
  obtain ⟨u, hu, hulen, hubuf, hui, huother⟩ := Vec.swap_remove_ok v i hinv hi
  refine ⟨⟨w, hw, hwlen, by rw [show w.capacity = w.buf.capacity from rfl, hwbuf]; rfl, hwlo, hwmid, hwtop⟩,
          ⟨u, hu, hulen, by rw [show u.capacity = u.buf.capacity from rfl, hubuf]; rfl, hui, huother⟩,
          ?_⟩
  intro m2 hm2
  obtain ⟨w2, hw2, hw2len, -, hw2lo, hw2mid, -⟩ :=
    Vec.remove_ok { v with mem := m2 } i hinv hi
  obtain ⟨u2, hu2, hu2len, -, hu2i, hu2other⟩ :=
    Vec.swap_remove_ok { v with mem := m2 } i hinv hi
  have hlen2 : ({ v with mem := m2 } : Vec α).len = v.len := rfl
  constructor
  · refine ⟨w, w2, hw, ?_, by omega, ?_⟩
    · rw [hw2]
      rw [show ({ v with mem := m2 } : Vec α).mem i = m2 i from rfl, hm2 i hi]
    · intro j hj
      by_cases hji : j < i
      · rw [hw2lo j hji, hwlo j hji]
        exact hm2 j (by omega)
      · rw [hw2mid j (by omega) (by omega), hwmid j (by omega) (by omega)]
        exact hm2 (j + 1) (by omega)
  · refine ⟨u, u2, hu, ?_, by omega, ?_⟩
    · rw [hu2]
      rw [show ({ v with mem := m2 } : Vec α).mem i = m2 i from rfl, hm2 i hi]
    · intro j hj
      by_cases hji : j = i
      · subst hji
        rw [hu2i, hui]
        exact hm2 (v.len - 1) (by omega)
      · rw [hu2other j hji, huother j hji]
        exact hm2 j (by omega)

/-- Witness for C7: removing and swap-removing index 0 of the concrete
vector `v2`. -/
theorem C7_remove_and_swap_remove_witness :
    v2.len ≤ v2.capacity ∧ 0 < v2.len ∧
    ((∃ w, v2.remove 0 = .ok (v2.mem 0, w) ∧ w.len = v2.len - 1 ∧ w.capacity = v2.capacity ∧
       (∀ j, j < 0 → w.mem j = v2.mem j) ∧
       (∀ j, 0 ≤ j → j + 2 ≤ v2.len → w.mem j = v2.mem (j + 1)) ∧
       (∀ j, v2.len - 1 ≤ j → w.mem j = v2.mem j)) ∧
     (∃ w, v2.swap_remove 0 = .ok (v2.mem 0, w) ∧ w.len = v2.len - 1 ∧ w.capacity = v2.capacity ∧
       w.mem 0 = v2.mem (v2.len - 1) ∧
       (∀ j, j ≠ 0 → w.mem j = v2.mem j)) ∧
     (∀ m2 : Nat → Option Nat, (∀ j, j < v2.len → m2 j = v2.mem j) →
       (∃ w w2, v2.remove 0 = .ok (v2.mem 0, w) ∧
          Vec.remove { v2 with mem := m2 } 0 = .ok (v2.mem 0, w2) ∧
          w2.len = w.len ∧ ∀ j, j < v2.len - 1 → w2.mem j = w.mem j) ∧
       (∃ w w2, v2.swap_remove 0 = .ok (v2.mem 0, w) ∧
          Vec.swap_remove { v2 with mem := m2 } 0 = .ok (v2.mem 0, w2) ∧
          w2.len = w.len ∧ ∀ j, j < v2.len - 1 → w2.mem j = w.mem j))) :=
  ⟨by decide, by decide, C7_remove_and_swap_remove v2 0 (by decide) (by decide)⟩

/-- C8: for a zero-sized element type the capacity reads as `usize::MAX`
on a fresh vector and after any number of pushes, while the length counts
the pushes exactly. -/
theorem C8_zst_capacity (n : Nat) (h : n ≤ USIZE_MAX) :
    (Vec.new (α := Unit) true).capacity = USIZE_MAX ∧
    ∃ w, pushAll (Vec.new (α := Unit) true) (List.replicate n ()) = .ok w ∧
      w.capacity = USIZE_MAX ∧ w.len = n := by
  refine ⟨rfl, ?_⟩
  obtain ⟨w, hw, hlen, -, -, hzst, -, -⟩ :=
    pushAll_ok (List.replicate n ()) (Vec.new true) (Nat.zero_le _)
      (by show 0 + (List.replicate n ()).length ≤ USIZE_MAX; simp [h])
  have hz : w.buf.zst = true := hzst
  refine ⟨w, hw, ?_, ?_⟩
  · show RawVec.capacity w.buf = USIZE_MAX
    unfold RawVec.capacity
    rw [hz]
    simp
  · rw [hlen]
    show 0 + (List.replicate n ()).length = n
    simp

/-- Witness for C8: 101 pushes of a zero-sized value. -/
theorem C8_zst_capacity_witness :
    (101 : Nat) ≤ USIZE_MAX ∧
    ((Vec.new (α := Unit) true).capacity = USIZE_MAX ∧
     ∃ w, pushAll (Vec.new (α := Unit) true) (List.replicate 101 ()) = .ok w ∧
       w.capacity = USIZE_MAX ∧ w.len = 101) :=
  ⟨by decide, C8_zst_capacity 101 (by decide)⟩

/-- C9: setting the length of a zero-sized vector to `usize::MAX` through
`set_len` and then pushing once more fails (the growth request overflows)
instead of wrapping the length. -/
theorem C9_zst_overflow :
    ∃ w, (Vec.new (α := Unit) true).set_len USIZE_MAX = .ok w ∧
      w.len = USIZE_MAX ∧ w.push () = .error w :=
  ⟨{ Vec.new true with len := USIZE_MAX },
   Vec.set_len_ok _ _ (Nat.le_refl USIZE_MAX), rfl, rfl⟩

/-- C10: every public operation preserves `length <= capacity`, and
`set_len` succeeds exactly when the new length respects the capacity. -/
theorem C10_invariant :
    (∀ z : Bool, (Vec.new (α := α) z).len ≤ (Vec.new (α := α) z).capacity) ∧
    (∀ (z : Bool) (n : Nat),
      (Vec.with_capacity (α := α) z n).len ≤ (Vec.with_capacity (α := α) z n).capacity) ∧
    (∀ (z : Bool) (n : Nat),
      (Vec.with_capacity_zeroed (α := α) z n).len ≤ (Vec.with_capacity_zeroed (α := α) z n).capacity) ∧
    (∀ (v w : Vec α) (x : α), v.len ≤ v.capacity → v.push x = .ok w → w.len ≤ w.capacity) ∧
    (∀ v : Vec α, v.len ≤ v.capacity → (v.pop).2.len ≤ (v.pop).2.capacity) ∧
    (∀ (v w : Vec α) (i : Nat) (x : α), v.len ≤ v.capacity → v.insert i x = .ok w →
      w.len ≤ w.capacity) ∧
    (∀ (v : Vec α) (i : Nat) (r : Option α × Vec α), v.len ≤ v.capacity → v.remove i = .ok r →
      r.2.len ≤ r.2.capacity) ∧
    (∀ (v : Vec α) (i : Nat) (r : Option α × Vec α), v.len ≤ v.capacity →
      v.swap_remove i = .ok r → r.2.len ≤ r.2.capacity) ∧
    (∀ (v w : Vec α) (n : Nat), v.set_len n = .ok w →
      n ≤ v.capacity ∧ w.len = n ∧ w.capacity = v.capacity) := by
  refine ⟨fun z => Nat.zero_le _, fun z n => Nat.zero_le _, fun z n => Nat.zero_le _,
          ?_, ?_, ?_, ?_, ?_, ?_⟩
  · intro v w x hinv h
    unfold Vec.push at h
    split at h
    · unfold RawVec.reserve_for_push at h
      split at h
      · exact Except.noConfusion h
      · rename_i b heq
        cases h
        exact (RawVec.reserve_spec heq).1
    · rename_i hfull
      cases h
      show v.len + 1 ≤ v.capacity
      omega
  · intro v hinv
    unfold Vec.pop
    split
    · exact hinv
    · show v.len - 1 ≤ v.capacity
      omega
  · intro v w i x hinv h
    unfold Vec.insert at h
    split at h
    · split at h
      · exact Except.noConfusion h
      · rename_i b heq
        rw [Vec.set_len_ok_iff] at h
        obtain ⟨hle, rfl⟩ := h
        exact hle
    · exact Except.noConfusion h
  · intro v i r hinv h
    unfold Vec.remove at h
    split at h
    · split at h
      · exact Except.noConfusion h
      · rename_i w2 heq
        cases h
        rw [Vec.set_len_ok_iff] at heq
        obtain ⟨hle, rfl⟩ := heq
        exact hle
    · exact Except.noConfusion h
  · intro v i r hinv h
    unfold Vec.swap_remove at h
    split at h
    · split at h
      · exact Except.noConfusion h
      · rename_i w2 heq
        cases h
        rw [Vec.set_len_ok_iff] at heq
        obtain ⟨hle, rfl⟩ := heq
        exact hle
    · exact Except.noConfusion h
  · intro v w n h
    rw [Vec.set_len_ok_iff] at h
    obtain ⟨hle, rfl⟩ := h
    exact ⟨hle, rfl, rfl⟩

/-- Witness for C10: each operation instantiated on the concrete vector
`v2` with its hypotheses discharged. -/
theorem C10_invariant_witness :
    ((Vec.new (α := Nat) false).len ≤ (Vec.new (α := Nat) false).capacity) ∧
    ((Vec.with_capacity (α := Nat) false 8).len ≤ (Vec.with_capacity (α := Nat) false 8).capacity) ∧
    ((Vec.with_capacity_zeroed (α := Nat) false 8).len ≤ (Vec.with_capacity_zeroed (α := Nat) false 8).capacity) ∧
    (v2.push 7 = .ok v2push ∧ v2push.len ≤ v2push.capacity) ∧
    ((v2.pop).2.len ≤ (v2.pop).2.capacity) ∧
    (v2.insert 1 9 = .ok v2ins ∧ v2ins.len ≤ v2ins.capacity) ∧
    (v2.remove 0 = .ok (some 10, v2rem) ∧ v2rem.len ≤ v2rem.capacity) ∧
    (v2.swap_remove 0 = .ok (some 10, v2swap) ∧ v2swap.len ≤ v2swap.capacity) ∧
    (v2.set_len 1 = .ok { v2 with len := 1 } ∧
      1 ≤ v2.capacity ∧ ({ v2 with len := 1 } : Vec Nat).len = 1 ∧
      ({ v2 with len := 1 } : Vec Nat).capacity = v2.capacity) :=
  ⟨(C10_invariant (α := Nat)).1 false,
   (C10_invariant (α := Nat)).2.1 false 8,
   (C10_invariant (α := Nat)).2.2.1 false 8,
   ⟨rfl, (C10_invariant (α := Nat)).2.2.2.1 v2 v2push 7 (by decide) rfl⟩,
   (C10_invariant (α := Nat)).2.2.2.2.1 v2 (by decide),
   ⟨rfl, (C10_invariant (α := Nat)).2.2.2.2.2.1 v2 v2ins 1 9 (by decide) rfl⟩,
   ⟨rfl, (C10_invariant (α := Nat)).2.2.2.2.2.2.1 v2 0 (some 10, v2rem) (by decide) rfl⟩,
   ⟨rfl, (C10_invariant (α := Nat)).2.2.2.2.2.2.2.1 v2 0 (some 10, v2swap) (by decide) rfl⟩,
   ⟨rfl, (C10_invariant (α := Nat)).2.2.2.2.2.2.2.2 v2 { v2 with len := 1 } 1 rfl⟩⟩

end Rustified
